import Mathlib

/-!
Verification of the stateless-client proof layer
(`ethereum/tools/stateless_client.py`).

Bytes are modelled as `List Nat`, key-value stores as association lists
with newest entry first (a `put` shadows older entries, as a mutable dict
does).  The trie module (`ethereum/trie.py`) is not part of the sources
under review; its primitives are modelled from the spec (§4.1, §6) and
are marked `Modelled from the spec:` below.  Everything taken from
`stateless_client.py` keeps the source's names.
-/

abbrev Bytes := List Nat

abbrev DB := List (Bytes × Bytes)

def dbPut (db : DB) (k v : Bytes) : DB := (k, v) :: db

def dbGet : DB → Bytes → Option Bytes
  | [], _ => none
  | (k, v) :: rest, key => if k = key then some v else dbGet rest key

/-- Modelled from the spec: the content hash (`sha3`), consumed from
`ethereum.utils`.  The spec uses the hash only as a deterministic content
commitment, so it is modelled as an injective encoding of the hashed bytes. -/
def sha3 (b : Bytes) : Bytes := b.length :: b

/-- Error taxonomy of §7, plus the Python-level exceptions the source can
raise (`IndexError` from indexing an empty sequence, `AssertionError` from
a failed `assert` that the spec does not classify as `InvalidBundle`). -/
inductive SCErr where
  | assertionError
  | invalidBundle
  | corruptedBranch
  | indexError
  deriving DecidableEq

deriving instance DecidableEq for Except

/-- Modelled from the spec: the path-fragment encoder feeding
`decode_bin_path` (§6).  The real codec packs a bit path into bytes behind
a small header; the model keeps a single header byte so that
`decode_bin_path (encode_bin_path p) = p`, the only property the spec
relies on. -/
def encode_bin_path (p : Bytes) : Bytes := 0 :: p

/-- Modelled from the spec: the path-fragment decoder (§6), total on raw
bytes (a corrupted fragment still decodes to some path). -/
def decode_bin_path : Bytes → Bytes
  | [] => []
  | _ :: rest => rest

/-- Modelled from the spec: the kv-node encoder (§6); a key/value node is
a tag byte, the encoded path fragment, then the child hash. -/
def encode_kv_node (path : Bytes) (child : Bytes) : Bytes :=
  0 :: (encode_bin_path path ++ child)

/-- Modelled from the spec: the branch-node encoder (§6); a branch node is
a tag byte, the left child hash, then the right child hash. -/
def encode_branch_node (left right : Bytes) : Bytes :=
  1 :: (left ++ right)

/-- Modelled from the spec: `encodeKey` (§6) — expand each key byte into
its eight bits, most significant first, giving the binary keypath the
trie walks. -/
def byteToBits (n : Nat) : Bytes :=
  [n / 128 % 2, n / 64 % 2, n / 32 % 2, n / 16 % 2,
   n / 8 % 2, n / 4 % 2, n / 2 % 2, n % 2]

def encode_bin (key : Bytes) : Bytes := (key.map byteToBits).flatten

/-- Modelled from the spec: `hashAndPersist` (§6) — store a node under its
content hash. -/
def hash_and_save (db : DB) (node : Bytes) : DB := dbPut db (sha3 node) node

/-- Modelled from the spec (§3, §4.1): the binary trie reachable from a
root, taken structurally.  A node is a terminal leaf value, a key/value
(extension) node carrying a path fragment, or a two-way branch node. -/
inductive TNode where
  | leaf (value : Bytes)
  | kv (path : Bytes) (child : TNode)
  | branch (left right : TNode)
  deriving DecidableEq

/-- Encoded bytes of a trie node: a leaf is the raw value; kv and branch
nodes are built with the node encoders over the children's hashes. -/
def encodeNode : TNode → Bytes
  | .leaf v => v
  | .kv path child => encode_kv_node path (sha3 (encodeNode child))
  | .branch l r =>
      encode_branch_node (sha3 (encodeNode l)) (sha3 (encodeNode r))

/-- The root hash committed to by a trie. -/
def trieRoot (t : TNode) : Bytes := sha3 (encodeNode t)

/-- Modelled from the spec: `get(store, root, encodedKey)` (§6) — walk the
trie along the binary keypath; `none` when the key is absent. -/
def trieGet : TNode → Bytes → Option Bytes
  | .leaf v, [] => some v
  | .leaf _, _ :: _ => none
  | .kv path child, kp =>
      if kp.take path.length = path ∧ path.length ≤ kp.length then
        trieGet child (kp.drop path.length)
      else none
  | .branch _ _, [] => none
  | .branch l r, b :: kp => if b = 0 then trieGet l kp else trieGet r kp

/-- Modelled from the spec: `getBranchRaw` (§6) / `trie._get_branch` — the
compact branch for a keypath, ordered root to leaf.  A kv step is marker
byte 1 plus the encoded path fragment, a branch step is marker 2 (walk
left, carry the right sibling hash) or 3 (walk right, carry the left
sibling hash); the terminal element is raw node bytes.  When the keypath
diverges at a kv node the branch terminates early with the child's node
bytes — the exclusion shape of §4.1. -/
def getBranch : TNode → Bytes → List Bytes
  | t, [] => [encodeNode t]
  | .leaf v, _ :: _ => [v]
  | .kv path child, kp =>
      if kp.take path.length = path ∧ path.length ≤ kp.length then
        (1 :: encode_bin_path path) :: getBranch child (kp.drop path.length)
      else
        [1 :: encode_bin_path path, encodeNode child]
  | .branch l r, b :: kp =>
      if b = 0 then (2 :: sha3 (encodeNode r)) :: getBranch l kp
      else (3 :: sha3 (encodeNode l)) :: getBranch r kp

/-- Processing core of `store_merkle_branch_nodes` (source lines 26–42).
The Python code seeds `nodes = [branch[-1]]`, saves it, then walks
`branch[-2::-1]`; recursing on the head first processes the deeper steps,
which is exactly that reverse walk.  The db is threaded so that writes
made before an exception are kept, as with a mutated Python dict. -/
def storeSteps : List Bytes → DB → DB × Except SCErr Bytes
  | [], db => (db, .error .indexError)
  | [last], db => (hash_and_save db last, .ok last)
  | data :: b :: rest, db =>
      match storeSteps (b :: rest) db with
      | (db1, .error e) => (db1, .error e)
      | (db1, .ok cursor) =>
          match data with
          | [] => (db1, .error .indexError)
          | marker :: node =>
              if marker = 1 then
                let n := encode_kv_node (decode_bin_path node) (sha3 cursor)
                (hash_and_save db1 n, .ok n)
              else if marker = 2 then
                let n := encode_branch_node (sha3 cursor) node
                (hash_and_save db1 n, .ok n)
              else if marker = 3 then
                let n := encode_branch_node node (sha3 cursor)
                (hash_and_save db1 n, .ok n)
              else (db1, .error .corruptedBranch)

def store_merkle_branch_nodes (db : DB) (branch : List Bytes) :
    DB × Except SCErr Bytes :=
  storeSteps branch db

/-- The Python function `store_merkle_branch_nodes` has no `return`
statement: when the call completes its value is `None`.  This definition
exposes exactly that caller-visible return value: `some none` when the
call returns (value `None`), `none` when it raises. -/
def store_merkle_branch_nodes_return (db : DB) (branch : List Bytes) :
    Option (Option Bytes) :=
  match store_merkle_branch_nodes db branch with
  | (_, .ok _) => some none
  | (_, .error _) => none

/-- Modelled from the spec: replay core of `verifyBranch` (§4.1) —
"replaying the same reconstruction" as `storeSteps` but purely, returning
the rebuilt root-most node, the keypath accumulated from the markers, and
the terminal leaf bytes. -/
def verifySteps : List Bytes → Except SCErr (Bytes × Bytes × Bytes)
  | [] => .error .indexError
  | [last] => .ok (last, [], last)
  | data :: b :: rest =>
      match verifySteps (b :: rest) with
      | .error e => .error e
      | .ok (cursor, kp, leafv) =>
          match data with
          | [] => .error .indexError
          | marker :: node =>
              if marker = 1 then
                let path := decode_bin_path node
                .ok (encode_kv_node path (sha3 cursor), path ++ kp, leafv)
              else if marker = 2 then
                .ok (encode_branch_node (sha3 cursor) node, 0 :: kp, leafv)
              else if marker = 3 then
                .ok (encode_branch_node node (sha3 cursor), 1 :: kp, leafv)
              else .error .corruptedBranch

/-- Modelled from the spec: `verifyBranch` / `trie._verify_branch` (§4.1)
— true iff the reconstruction yields `root`, the accumulated keypath
matches, and the leaf step's bytes equal `value`; for an empty `value`
(exclusion proof) the branch must reconstruct to `root` while its encoded
key diverges from `keypath`. -/
def verify_branch (branch : List Bytes) (root keypath value : Bytes) :
    Except SCErr Bool :=
  match verifySteps branch with
  | .error e => .error e
  | .ok (node, kp, leafv) =>
      if value ≠ [] then
        .ok (decide (kp = keypath) && decide (sha3 node = root) &&
             decide (leafv = value))
      else
        .ok (decide (sha3 node = root) && decide (kp ≠ keypath))

/-- A Python value appearing as an account key: account addresses are
byte strings, but `set(coinbase)` in `mk_confirmed_tx_bundle` yields the
individual bytes of the coinbase as `int` elements, so keys can be either. -/
inductive PyVal where
  | bytes (b : Bytes)
  | int (n : Nat)
  deriving DecidableEq

/-- Modelled from the spec: `ethereum.utils.to_string`, as used by
`sha3` — bytes pass through, an int becomes its decimal ASCII digits. -/
def pyToBytes : PyVal → Bytes
  | .bytes b => b
  | .int n => (Nat.toDigits 10 n).map Char.toNat

def sha3Py (v : PyVal) : Bytes := sha3 (pyToBytes v)

/-- Python truthiness of an account key (`assert db and root and value`):
a byte string is truthy iff nonempty, an int iff nonzero. -/
def pyTruthy : PyVal → Bool
  | .bytes b => !b.isEmpty
  | .int n => n ≠ 0

/-- `verify_merkle_proof` (source lines 18–24): assert the arguments are
truthy, then delegate to the trie's branch verification over the binary
keypath. -/
def verify_merkle_proof (branch : List Bytes) (root key value : Bytes) :
    Except SCErr Bool :=
  if branch = [] ∨ root = [] ∨ key = [] then .error .assertionError
  else verify_branch branch root (encode_bin key) value

/-- `get_merkle_proof` (source lines 7–16) over a PyVal account key: the
`(db, root)` pair is modelled by the structural trie `t`, so the
`assert db and root and value` reduces to truthiness of `value`.  The key
is `sha3(value)` and the returned branch is the trie's compact branch. -/
def get_merkle_proofP (t : TNode) (value : PyVal) :
    Except SCErr (List Bytes) :=
  if pyTruthy value = false then .error .assertionError
  else .ok (getBranch t (encode_bin (sha3Py value)))

def get_merkle_proof (t : TNode) (value : Bytes) :
    Except SCErr (List Bytes) :=
  get_merkle_proofP t (.bytes value)

/-- Modelled from the spec: account decoding from raw bytes exposing a
`code` field (§6); a concrete stand-in for `rlp.decode(…, Account).code`. -/
def account_code (rlpdata : Bytes) : Bytes := rlpdata.drop 1

structure AcctWrapper where
  acct_rlpdata : Bytes
  merkle_proof : List Bytes
  code : Bytes
  deriving DecidableEq

/-- `mk_account_proof_wrapper` (source lines 44–65) over a PyVal account
key: read the raw account bytes under the root (empty when absent), fetch
the branch with `get_merkle_proof`, and decode the account's code only
when the raw bytes are nonempty. -/
def mk_account_proof_wrapperP (t : TNode) (acct : PyVal) :
    Except SCErr AcctWrapper :=
  let rlpdata := (trieGet t (encode_bin (sha3Py acct))).getD []
  match get_merkle_proofP t acct with
  | .error e => .error e
  | .ok mp =>
      .ok { acct_rlpdata := rlpdata
            merkle_proof := mp
            code := if rlpdata ≠ [] then account_code rlpdata else [] }

def mk_account_proof_wrapper (t : TNode) (acct : Bytes) :
    Except SCErr AcctWrapper :=
  mk_account_proof_wrapperP t (.bytes acct)

/-- The transaction-bundle wire structure (§3).  Each proof list models
the Python list of single-entry dicts `{acct: wrapper}` as ordered
key–wrapper pairs. -/
structure TxBundle where
  tx_rlpdata : Bytes
  block_number : Int
  state_root : Bytes
  read_list_proof : List (PyVal × AcctWrapper)
  write_list_proof : List (PyVal × AcctWrapper)
  updated_acct_proof : List (PyVal × AcctWrapper)
  deriving DecidableEq

/-- A confirmed transaction as `mk_confirmed_tx_bundle` consumes it.
`read_write_union_list` is a Python set; the model carries its iteration
order as a list.  The serialized form `rlp.encode(tx, Transaction)` is
external (§6), so the model carries it as a field. -/
structure TxConfirmed where
  read_list : List Bytes
  write_list : List Bytes
  read_write_union_list : List Bytes
  tx_rlpdata : Bytes
  deriving DecidableEq

/-- The loop body shared by the three proof lists of the builders: build
a wrapper per account key, stopping at the first raised error. -/
def buildWrappers (t : TNode) : List PyVal →
    Except SCErr (List (PyVal × AcctWrapper))
  | [] => .ok []
  | a :: rest =>
      match mk_account_proof_wrapperP t a with
      | .error e => .error e
      | .ok w =>
          match buildWrappers t rest with
          | .error e => .error e
          | .ok ws => .ok ((a, w) :: ws)

/-- The account keys iterated for `updated_acct_proof` (source line 118):
`tx.read_write_union_list | set(coinbase)`.  `set(coinbase)` is the set of
the *individual bytes* of the coinbase address as ints, so the union holds
the read/write addresses as byte strings plus each distinct coinbase byte
as an int.  Python set iteration order is unspecified; the model
enumerates the union as the deduplicated concatenation. -/
def updatedAcctKeys (read_write_union : List Bytes) (coinbase : Bytes) :
    List PyVal :=
  (read_write_union.map PyVal.bytes ++ coinbase.map PyVal.int).dedup

/-- `mk_confirmed_tx_bundle` (source lines 90–122).  The Python `(db,
root)` pairs are modelled structurally: `tPrev` is the trie at
`prev_blk_state_root`, `tLatest` the trie at `latest_blk_state_root`. -/
def mk_confirmed_tx_bundle (tPrev tLatest : TNode) (tx : TxConfirmed)
    (prev_blk_number : Int) (coinbase : Bytes) : Except SCErr TxBundle :=
  match buildWrappers tPrev ((tx.read_list ++ [coinbase]).map PyVal.bytes) with
  | .error e => .error e
  | .ok rlp_proof =>
      match buildWrappers tPrev
          ((tx.write_list ++ [coinbase]).map PyVal.bytes) with
      | .error e => .error e
      | .ok wlp_proof =>
          match buildWrappers tLatest
              (updatedAcctKeys tx.read_write_union_list coinbase) with
          | .error e => .error e
          | .ok updated =>
              .ok { tx_rlpdata := tx.tx_rlpdata
                    block_number := prev_blk_number
                    state_root := trieRoot tPrev
                    read_list_proof := rlp_proof
                    write_list_proof := wlp_proof
                    updated_acct_proof := updated }

/-- The caller-visible environment handed to `verify_tx_bundle`; only its
database is relevant to the frame claims (the config fields are read-only
configuration). -/
structure Env where
  db : DB
  deriving DecidableEq

/-- What a call to `verify_tx_bundle` leaves behind: the Python return
value or exception, the caller's env and bundle after the call, and the
final contents of the internally created ephemeral store. -/
structure VerifyResult where
  result : Except SCErr Bool
  env_after : Env
  bundle_after : TxBundle
  ephem_db : DB

/-- One proof-list loop of `verify_tx_bundle` (source lines 136–152):
for each `(acct, wrapper)`, assert the merkle proof verifies (a failed
assert is the spec's `InvalidBundle`), store the wrapper's code bytes if
nonempty, then reconstruct and store the branch nodes.  The ephemeral db
is threaded; an error keeps the writes made before it. -/
def processWrappers (root : Bytes) :
    DB → List (PyVal × AcctWrapper) → DB × Option SCErr
  | db, [] => (db, none)
  | db, (acct, w) :: rest =>
      match verify_merkle_proof w.merkle_proof root (sha3Py acct)
          w.acct_rlpdata with
      | .error e => (db, some e)
      | .ok false => (db, some .invalidBundle)
      | .ok true =>
          let db1 := if w.code ≠ [] then dbPut db (sha3 w.code) w.code else db
          match store_merkle_branch_nodes db1 w.merkle_proof with
          | (db2, .error e) => (db2, some e)
          | (db2, .ok _) => processWrappers root db2 rest

/-- The seeded ephemeral store: a fresh `EphemDB` holding only the
canonical empty-value entry `put(sha3(b''), b'')` (source lines 130–131). -/
def ephemInit : DB := dbPut [] (sha3 []) []

/-- Computation core of `verify_tx_bundle` (source lines 124–157),
parametric in the external execution engine (§6): `applyTx` stands for
`rlp.decode` plus `apply_transaction`, consuming the ephemeral store, the
coinbase and the serialized transaction and returning the success flag and
the store it leaves.  A root mismatch is the spec's `InvalidBundle`. -/
def verify_core (applyTx : DB → Bytes → Bytes → Bool × DB)
    (state_root coinbase tx_rlpdata bundle_root : Bytes)
    (rlp_proof wlp_proof : List (PyVal × AcctWrapper)) :
    Except SCErr Bool × DB :=
  if state_root = bundle_root then
    match processWrappers bundle_root ephemInit rlp_proof with
    | (db1, some e) => (.error e, db1)
    | (db1, none) =>
        match processWrappers bundle_root db1 wlp_proof with
        | (db2, some e) => (.error e, db2)
        | (db2, none) =>
            let r := applyTx db2 coinbase tx_rlpdata
            (.ok r.1, r.2)
  else (.error .invalidBundle, ephemInit)

/-- `verify_tx_bundle` (source lines 124–157): every write of the source
goes through `ephem_state`, whose trie db and env db alias the fresh
`EphemDB` created on line 130, so the caller's env and the bundle come
back unchanged in every branch. -/
def verify_tx_bundle (applyTx : DB → Bytes → Bytes → Bool × DB)
    (env : Env) (state_root coinbase : Bytes) (b : TxBundle) :
    VerifyResult :=
  let r := verify_core applyTx state_root coinbase b.tx_rlpdata b.state_root
    b.read_list_proof b.write_list_proof
  { result := r.1, env_after := env, bundle_after := b, ephem_db := r.2 }

/-- A transaction as `group_txs` consumes it: only its touch set
`read_write_union_list` matters there. -/
structure Tx where
  read_write_union_list : Finset Nat
  deriving DecidableEq

/-- The loop of `group_txs` (source lines 159–175) with the accumulators
made explicit: `cset` is `current_set`, `cgroup` is `current_group`; a
touch-set overlap closes the current group. -/
def group_go : List Tx → Finset Nat → List Tx → List (List Tx)
  | [], _, cgroup => [cgroup]
  | tx :: rest, cset, cgroup =>
      if ¬ Disjoint tx.read_write_union_list cset then
        cgroup :: group_go rest tx.read_write_union_list [tx]
      else
        group_go rest (cset ∪ tx.read_write_union_list) (cgroup ++ [tx])

def group_txs (txs : List Tx) : List (List Tx) := group_go txs ∅ []

/-- The union of the touch sets of a run of transactions. -/
def unionRW (g : List Tx) : Finset Nat :=
  g.foldr (fun t s => t.read_write_union_list ∪ s) ∅

/-- Each transaction's touch set is disjoint from the running union of
the touch sets of all transactions before it (running union seeded by
`s`). -/
def disjointChain : Finset Nat → List Tx → Prop
  | _, [] => True
  | s, tx :: rest =>
      Disjoint tx.read_write_union_list s ∧
      disjointChain (s ∪ tx.read_write_union_list) rest

/-- A two-step trie holding value `[42]` at the full binary keypath of
`sha3 [7]` (used as a concrete presence witness). -/
def tKV : TNode :=
  .kv [0, 0, 0, 0, 0, 0, 0, 1, 0, 0, 0, 0, 0, 1, 1, 1] (.leaf [42])

/-- A concrete wrapper whose branch does not verify against root `[9]`. -/
def w0 : AcctWrapper :=
  { acct_rlpdata := [5], merkle_proof := [[5]], code := [] }

def b0 : TxBundle :=
  { tx_rlpdata := [], block_number := 0, state_root := [9],
    read_list_proof := [(.bytes [7], w0)], write_list_proof := [],
    updated_acct_proof := [] }

def b1 : TxBundle :=
  { tx_rlpdata := [], block_number := 0, state_root := [1],
    read_list_proof := [], write_list_proof := [], updated_acct_proof := [] }

/-- Same as `b1` except for `block_number` and `updated_acct_proof`. -/
def b2 : TxBundle :=
  { tx_rlpdata := [], block_number := 7, state_root := [1],
    read_list_proof := [], write_list_proof := [],
    updated_acct_proof := [(.int 3, w0)] }

/-- A concrete stand-in execution engine for witnesses. -/
def f0 : DB → Bytes → Bytes → Bool × DB := fun db _ _ => (true, db)

def env0 : Env := { db := [] }

/-- A confirmed transaction touching the single account `[170]`, used with
coinbase `[1, 2]` to exhibit the `set(coinbase)` slip of source line 118. -/
def coinbase_bug_tx : TxConfirmed :=
  { read_list := [[170]], write_list := [], read_write_union_list := [[170]],
    tx_rlpdata := [] }
lemma getBranch_ne_nil (t : TNode) (kp : Bytes) : getBranch t kp ≠ [] := by
  cases t <;> cases kp <;> simp [getBranch] <;> split <;> simp

lemma storeSteps_getBranch (t : TNode) :
    ∀ (kp : Bytes) (db : DB),
      (storeSteps (getBranch t kp) db).2 = .ok (encodeNode t) := by
  induction t with
  | leaf v =>
      intro kp db
      cases kp <;> simp [getBranch, storeSteps, encodeNode]
  | kv path child ih =>
      intro kp db
      cases kp with
      | nil => simp [getBranch, storeSteps]
      | cons k ks =>
          by_cases h : (k :: ks).take path.length = path ∧ path.length ≤ (k :: ks).length
          · rw [getBranch, if_pos h]
            · cases hgb : getBranch child ((k :: ks).drop path.length) with
              | nil => exact absurd hgb (getBranch_ne_nil _ _)
              | cons hd tl =>
                  have ih' := ih ((k :: ks).drop path.length) db
                  rw [hgb] at ih'
                  cases hp : storeSteps (hd :: tl) db with
                  | mk db1 r =>
                      rw [hp] at ih'
                      simp at ih'
                      simp [storeSteps, hp, ih', encodeNode, encode_kv_node,
                        decode_bin_path, encode_bin_path]
            · simp
          · rw [getBranch, if_neg h]
            · simp [storeSteps, hash_and_save, encodeNode, encode_kv_node,
                decode_bin_path, encode_bin_path]
            · simp
  | branch l r ihl ihr =>
      intro kp db
      cases kp with
      | nil => simp [getBranch, storeSteps]
      | cons k ks =>
          by_cases h : k = 0
          · rw [getBranch, if_pos h]
            cases hgb : getBranch l ks with
            | nil => exact absurd hgb (getBranch_ne_nil _ _)
            | cons hd tl =>
                have ih' := ihl ks db
                rw [hgb] at ih'
                cases hp : storeSteps (hd :: tl) db with
                | mk db1 rr =>
                    rw [hp] at ih'
                    simp at ih'
                    simp [storeSteps, hp, ih', encodeNode, encode_branch_node]
          · rw [getBranch, if_neg h]
            cases hgb : getBranch r ks with
            | nil => exact absurd hgb (getBranch_ne_nil _ _)
            | cons hd tl =>
                have ih' := ihr ks db
                rw [hgb] at ih'
                cases hp : storeSteps (hd :: tl) db with
                | mk db1 rr =>
                    rw [hp] at ih'
                    simp at ih'
                    simp [storeSteps, hp, ih', encodeNode, encode_branch_node]

lemma verifySteps_storeSteps (branch : List Bytes) :
    ∀ n kp lf db, verifySteps branch = .ok (n, kp, lf) →
    (storeSteps branch db).2 = .ok n := by
  induction branch with
  | nil => intro n kp lf db h; simp [verifySteps] at h
  | cons a l ih =>
      intro n kp lf db h
      cases l with
      | nil =>
          simp [verifySteps] at h
          simp [storeSteps, h.1]
      | cons b rest =>
          rw [verifySteps] at h
          cases hv : verifySteps (b :: rest) with
          | error e => rw [hv] at h; simp at h
          | ok trip =>
              obtain ⟨cursor, kp0, lf0⟩ := trip
              rw [hv] at h
              simp at h
              have hst := ih cursor kp0 lf0 db hv
              cases hp : storeSteps (b :: rest) db with
              | mk db1 r =>
                  rw [hp] at hst
                  simp at hst
                  subst hst
                  cases a with
                  | nil => simp at h
                  | cons marker node =>
                      simp at h
                      by_cases h1 : marker = 1
                      · rw [if_pos h1] at h
                        simp at h
                        simp [storeSteps, hp, h1, h.1]
                      · rw [if_neg h1] at h
                        by_cases h2 : marker = 2
                        · rw [if_pos h2] at h
                          simp at h
                          simp [storeSteps, hp, h1, h2, h.1]
                        · rw [if_neg h2] at h
                          by_cases h3 : marker = 3
                          · rw [if_pos h3] at h
                            simp at h
                            simp [storeSteps, hp, h1, h2, h3, h.1]
                          · rw [if_neg h3] at h
                            simp at h

lemma storeSteps_saves_final (branch : List Bytes) (db db' : DB) (node : Bytes)
    (h : storeSteps branch db = (db', .ok node)) :
    dbGet db' (sha3 node) = some node := by
  cases branch with
  | nil => simp [storeSteps] at h
  | cons a l =>
      cases l with
      | nil =>
          simp [storeSteps] at h
          obtain ⟨h1, h2⟩ := h
          subst h1; subst h2
          simp [hash_and_save, dbPut, dbGet]
      | cons b rest =>
          rw [storeSteps] at h
          cases hp : storeSteps (b :: rest) db with
          | mk db1 r =>
              rw [hp] at h
              cases r with
              | error e => simp at h
              | ok cursor =>
                  cases a with
                  | nil => simp at h
                  | cons marker nodeb =>
                      simp at h
                      by_cases h1 : marker = 1
                      · rw [if_pos h1] at h
                        simp at h
                        obtain ⟨hdb, hn⟩ := h
                        subst hdb; subst hn
                        simp [hash_and_save, dbPut, dbGet]
                      · rw [if_neg h1] at h
                        by_cases h2 : marker = 2
                        · rw [if_pos h2] at h
                          simp at h
                          obtain ⟨hdb, hn⟩ := h
                          subst hdb; subst hn
                          simp [hash_and_save, dbPut, dbGet]
                        · rw [if_neg h2] at h
                          by_cases h3 : marker = 3
                          · rw [if_pos h3] at h
                            simp at h
                            obtain ⟨hdb, hn⟩ := h
                            subst hdb; subst hn
                            simp [hash_and_save, dbPut, dbGet]
                          · rw [if_neg h3] at h
                            simp at h

lemma verify_ok_verifySteps (br : List Bytes) (root key value : Bytes)
    (h : verify_merkle_proof br root key value = .ok true) :
    ∃ trip, verifySteps br = .ok trip := by
  rw [verify_merkle_proof] at h
  split at h
  · simp at h
  · rw [verify_branch] at h
    cases hv : verifySteps br with
    | error e => rw [hv] at h; simp at h
    | ok trip => exact ⟨trip, rfl⟩

lemma processWrappers_append (root : Bytes) (xs ys : List (PyVal × AcctWrapper)) :
    ∀ db, processWrappers root db (xs ++ ys) =
      match processWrappers root db xs with
      | (db1, some e) => (db1, some e)
      | (db1, none) => processWrappers root db1 ys := by
  induction xs with
  | nil => intro db; simp [processWrappers]
  | cons p rest ih =>
      intro db
      obtain ⟨acct, w⟩ := p
      rw [List.cons_append, processWrappers, processWrappers]
      cases hv : verify_merkle_proof w.merkle_proof root (sha3Py acct)
          w.acct_rlpdata with
      | error e => simp
      | ok bv =>
          cases bv with
          | false => simp
          | true =>
              simp only []
              cases hs : store_merkle_branch_nodes
                  (if w.code ≠ [] then dbPut db (sha3 w.code) w.code else db)
                  w.merkle_proof with
              | mk db2 r =>
                  cases r with
                  | error e => simp
                  | ok n => simp [ih]

lemma processWrappers_ok (root : Bytes) (pre : List (PyVal × AcctWrapper))
    (hpre : ∀ p ∈ pre, verify_merkle_proof p.2.merkle_proof root (sha3Py p.1)
      p.2.acct_rlpdata = .ok true) :
    ∀ db, (processWrappers root db pre).2 = none := by
  induction pre with
  | nil => intro db; simp [processWrappers]
  | cons p rest ih =>
      intro db
      obtain ⟨acct, w⟩ := p
      have hv := hpre (acct, w) (by simp)
      simp only at hv
      rw [processWrappers, hv]
      simp only []
      obtain ⟨trip, htrip⟩ := verify_ok_verifySteps _ _ _ _ hv
      obtain ⟨n, kp, lf⟩ := trip
      have hst := verifySteps_storeSteps w.merkle_proof n kp lf
        (if w.code ≠ [] then dbPut db (sha3 w.code) w.code else db) htrip
      rw [store_merkle_branch_nodes] at *
      cases hs : storeSteps w.merkle_proof
          (if w.code ≠ [] then dbPut db (sha3 w.code) w.code else db) with
      | mk db2 r =>
          rw [hs] at hst
          simp at hst
          subst hst
          exact ih (fun q hq => hpre q (by simp [hq])) db2

lemma processWrappers_fail (root : Bytes) (pre post : List (PyVal × AcctWrapper))
    (acct : PyVal) (w : AcctWrapper)
    (hpre : ∀ p ∈ pre, verify_merkle_proof p.2.merkle_proof root (sha3Py p.1)
      p.2.acct_rlpdata = .ok true)
    (hfail : verify_merkle_proof w.merkle_proof root (sha3Py acct)
      w.acct_rlpdata = .ok false) :
    ∀ db, processWrappers root db (pre ++ (acct, w) :: post) =
      ((processWrappers root db pre).1, some .invalidBundle) := by
  intro db
  rw [processWrappers_append]
  have hok := processWrappers_ok root pre hpre db
  cases hp : processWrappers root db pre with
  | mk db1 r =>
      rw [hp] at hok
      simp at hok
      subst hok
      simp only []
      rw [processWrappers, hfail]

lemma verify_core_combined (f : DB → Bytes → Bytes → Bool × DB)
    (root cb txd broot : Bytes) (rl wl : List (PyVal × AcctWrapper))
    (h : root = broot) :
    verify_core f root cb txd broot rl wl =
      match processWrappers broot ephemInit (rl ++ wl) with
      | (db, some e) => (.error e, db)
      | (db, none) => (.ok (f db cb txd).1, (f db cb txd).2) := by
  rw [verify_core, if_pos h, processWrappers_append]
  cases hp : processWrappers broot ephemInit rl with
  | mk db1 r => cases r <;> rfl

/-- Claim C3: when the merkle proof of some wrapper in the bundle's read or
write list fails to verify against the bundle's state root, account-key hash
and raw account bytes (all earlier wrappers verifying), `verify_tx_bundle`
fails with the `InvalidBundle` verification failure — for every execution
engine, so transaction replay is never reached and `true` is never returned —
and the ephemeral store holds exactly the writes of the wrappers before the
failing one. -/
theorem verify_tx_bundle_proof_failure (f : DB → Bytes → Bytes → Bool × DB)
    (env : Env) (root cb : Bytes) (b : TxBundle)
    (pre post : List (PyVal × AcctWrapper)) (acct : PyVal) (w : AcctWrapper)
    (hroot : root = b.state_root)
    (hsplit : b.read_list_proof ++ b.write_list_proof = pre ++ (acct, w) :: post)
    (hpre : ∀ p ∈ pre, verify_merkle_proof p.2.merkle_proof b.state_root
      (sha3Py p.1) p.2.acct_rlpdata = .ok true)
    (hfail : verify_merkle_proof w.merkle_proof b.state_root (sha3Py acct)
      w.acct_rlpdata = .ok false) :
    (verify_tx_bundle f env root cb b).result = .error .invalidBundle ∧
    (verify_tx_bundle f env root cb b).ephem_db =
      (processWrappers b.state_root ephemInit pre).1 := by
  have hc := verify_core_combined f root cb b.tx_rlpdata b.state_root
    b.read_list_proof b.write_list_proof hroot
  rw [hsplit, processWrappers_fail b.state_root pre post acct w hpre hfail] at hc
  simp only [] at hc
  simp [verify_tx_bundle, hc]

/-- Claim C4: when the bundle's claimed `state_root` differs from the
expected root argument, `verify_tx_bundle` fails immediately with the hard
`InvalidBundle` failure — for every execution engine, so neither proof
checking nor replay is reached and `true` is never returned — and the
ephemeral store still holds only its initial seed entry. -/
theorem verify_tx_bundle_root_mismatch (f : DB → Bytes → Bytes → Bool × DB)
    (env : Env) (root cb : Bytes) (b : TxBundle)
    (h : root ≠ b.state_root) :
    (verify_tx_bundle f env root cb b).result = .error .invalidBundle ∧
    (verify_tx_bundle f env root cb b).ephem_db = ephemInit := by
  simp [verify_tx_bundle, verify_core, h]

/-- Claim C9: `verify_tx_bundle` writes only to the ephemeral state it
constructs itself: the caller's env (with its database) and the bundle come
back unchanged from every call, whether it succeeds or fails. -/
theorem verify_tx_bundle_frame (f : DB → Bytes → Bytes → Bool × DB)
    (env : Env) (root cb : Bytes) (b : TxBundle) :
    (verify_tx_bundle f env root cb b).env_after = env ∧
    (verify_tx_bundle f env root cb b).bundle_after = b :=
  ⟨rfl, rfl⟩

/-- Claim C10: the result of `verify_tx_bundle` does not depend on the
bundle's `updated_acct_proof` or `block_number`: two bundles agreeing on
`tx_rlpdata`, `state_root`, `read_list_proof` and `write_list_proof` give
the same result. -/
theorem verify_tx_bundle_field_independence (f : DB → Bytes → Bytes → Bool × DB)
    (env : Env) (root cb : Bytes) (b1 b2 : TxBundle)
    (h1 : b1.tx_rlpdata = b2.tx_rlpdata) (h2 : b1.state_root = b2.state_root)
    (h3 : b1.read_list_proof = b2.read_list_proof)
    (h4 : b1.write_list_proof = b2.write_list_proof) :
    (verify_tx_bundle f env root cb b1).result =
    (verify_tx_bundle f env root cb b2).result := by
  simp [verify_tx_bundle, h1, h2, h3, h4]

lemma storeSteps_error_class (l : List Bytes) :
    ∀ db e, (∀ s ∈ l.dropLast, s ≠ []) → l ≠ [] →
      (storeSteps l db).2 = .error e → e = .corruptedBranch := by
  induction l with
  | nil => intro db e _ hl _; exact absurd rfl hl
  | cons a l ih =>
      intro db e hne _ herr
      cases l with
      | nil => simp [storeSteps] at herr
      | cons b rest =>
          have hne' : ∀ s ∈ (b :: rest).dropLast, s ≠ [] := by
            intro s hs
            exact hne s (by simp [List.dropLast_cons₂]; tauto)
          have hnea : (a :: b :: rest).dropLast = a :: (b :: rest).dropLast := by
            simp
          rw [storeSteps] at herr
          cases hp : storeSteps (b :: rest) db with
          | mk db1 r =>
              rw [hp] at herr
              cases r with
              | error e' =>
                  simp at herr
                  exact herr ▸ ih db e' hne' (by simp) (by rw [hp])
              | ok cursor =>
                  cases a with
                  | nil =>
                      refine absurd rfl (hne [] ?_)
                      rw [hnea]
                      exact List.mem_cons_self [] _
                  | cons marker node =>
                      simp at herr
                      by_cases h1 : marker = 1
                      · rw [if_pos h1] at herr; simp at herr
                      · rw [if_neg h1] at herr
                        by_cases h2 : marker = 2
                        · rw [if_pos h2] at herr; simp at herr
                        · rw [if_neg h2] at herr
                          by_cases h3 : marker = 3
                          · rw [if_pos h3] at herr; simp at herr
                          · rw [if_neg h3] at herr
                            simp at herr
                            exact herr.symm

lemma storeSteps_corrupted (l : List Bytes) :
    ∀ db, (∀ s ∈ l.dropLast, s ≠ []) →
      (∃ s ∈ l.dropLast, ∃ m, s.head? = some m ∧ m ≠ 1 ∧ m ≠ 2 ∧ m ≠ 3) →
      (storeSteps l db).2 = .error .corruptedBranch := by
  induction l with
  | nil => intro db _ hbad; simp at hbad
  | cons a l ih =>
      intro db hne hbad
      cases l with
      | nil => simp at hbad
      | cons b rest =>
          have hne' : ∀ s ∈ (b :: rest).dropLast, s ≠ [] := by
            intro s hs
            exact hne s (by simp [List.dropLast_cons₂]; tauto)
          rw [storeSteps]
          cases hp : storeSteps (b :: rest) db with
          | mk db1 r =>
              cases r with
              | error e' =>
                  have : e' = .corruptedBranch :=
                    storeSteps_error_class (b :: rest) db e' hne' (by simp)
                      (by rw [hp])
                  simp [this]
              | ok cursor =>
                  obtain ⟨s, hs, m, hm, hm1, hm2, hm3⟩ := hbad
                  rw [List.dropLast_cons₂] at hs
                  cases hs with
                  | head =>
                      cases a with
                      | nil => simp at hm
                      | cons marker node =>
                          simp at hm
                          subst hm
                          simp [if_neg hm1, if_neg hm2, if_neg hm3]
                  | tail _ hs' =>
                      have := ih db hne' ⟨s, hs', m, hm, hm1, hm2, hm3⟩
                      rw [hp] at this
                      simp at this

lemma unionRW_cons (t : Tx) (g : List Tx) :
    unionRW (t :: g) = t.read_write_union_list ∪ unionRW g := by
  simp [unionRW]

lemma unionRW_append (g1 g2 : List Tx) :
    unionRW (g1 ++ g2) = unionRW g1 ∪ unionRW g2 := by
  induction g1 with
  | nil => simp [unionRW]
  | cons t g ih => simp [unionRW_cons, ih, Finset.union_assoc]

lemma group_go_join (txs : List Tx) :
    ∀ cset cgroup, (group_go txs cset cgroup).flatten = cgroup ++ txs := by
  induction txs with
  | nil => intro cset cgroup; simp [group_go]
  | cons tx rest ih =>
      intro cset cgroup
      rw [group_go]
      split
      · simp [ih]
      · simp [ih]

lemma disjointChain_append (g : List Tx) :
    ∀ (s : Finset Nat) (t : Tx), disjointChain s g →
      Disjoint t.read_write_union_list (s ∪ unionRW g) →
      disjointChain s (g ++ [t]) := by
  induction g with
  | nil =>
      intro s t _ hd
      refine ⟨?_, trivial⟩
      simpa [unionRW] using hd
  | cons x g ih =>
      intro s t hch hd
      obtain ⟨h1, h2⟩ := hch
      refine ⟨h1, ih _ t h2 ?_⟩
      rw [unionRW_cons] at hd
      rwa [← Finset.union_assoc] at hd

lemma group_go_chain (txs : List Tx) :
    ∀ cset cgroup, disjointChain ∅ cgroup → cset = unionRW cgroup →
      ∀ g ∈ group_go txs cset cgroup, disjointChain ∅ g := by
  induction txs with
  | nil =>
      intro cset cgroup hch _ g hg
      simp [group_go] at hg
      exact hg ▸ hch
  | cons tx rest ih =>
      intro cset cgroup hch hcs g hg
      rw [group_go] at hg
      split at hg
      · rcases List.mem_cons.mp hg with hgc | hg'
        · exact hgc ▸ hch
        · refine ih _ _ ?_ ?_ g hg'
          · simp [disjointChain]
          · simp [unionRW]
      · next hdis =>
          push_neg at hdis
          refine ih _ _ (disjointChain_append cgroup ∅ tx hch ?_) ?_ g hg
          · rw [Finset.empty_union]
            exact hcs ▸ hdis
          · rw [unionRW_append, hcs]
            simp [unionRW]

/-- Claim C8: the concatenation of the groups returned by `group_txs`
equals the original transaction sequence exactly, and within each group
every transaction's read/write account set is disjoint from the running
union of the account sets of the transactions before it in that group. -/
theorem group_txs_partition (txs : List Tx) :
    (group_txs txs).flatten = txs ∧
    ∀ g ∈ group_txs txs, disjointChain ∅ g := by
  constructor
  · simpa using group_go_join txs ∅ []
  · exact group_go_chain txs ∅ [] trivial (by simp [unionRW])

/-- Claim C1, counterexample: on the accepted one-step branch `[[5]]` the
call completes but its Python return value is `None`, not the content hash
`sha3 [5]` of the final reconstructed node — the function has no `return`
statement, so the claim as stated is false. -/
theorem store_merkle_branch_nodes_returns_none :
    store_merkle_branch_nodes_return [] [[5]] = some none ∧
    store_merkle_branch_nodes_return [] [[5]] ≠ some (some (sha3 [5])) := by
  decide

/-- Claim C1, amended: for every branch it accepts,
`store_merkle_branch_nodes` returns `None` (not the hash); the final,
root-most reconstructed node is persisted in the db under its content hash,
so that hash is the key of the last node saved rather than a return value. -/
theorem store_merkle_branch_nodes_saves_final (db db' : DB)
    (branch : List Bytes) (node : Bytes)
    (h : store_merkle_branch_nodes db branch = (db', .ok node)) :
    store_merkle_branch_nodes_return db branch = some none ∧
    dbGet db' (sha3 node) = some node := by
  refine ⟨?_, storeSteps_saves_final branch db db' node h⟩
  rw [store_merkle_branch_nodes_return, h]

theorem store_merkle_branch_nodes_saves_final_witness :
    store_merkle_branch_nodes []  [[3, 2], [7]] =
      ([([4, 1, 2, 1, 7], [1, 2, 1, 7]), ([1, 7], [7])], .ok [1, 2, 1, 7]) ∧
    store_merkle_branch_nodes_return [] [[3, 2], [7]] = some none ∧
    dbGet [([4, 1, 2, 1, 7], [1, 2, 1, 7]), ([1, 7], [7])] (sha3 [1, 2, 1, 7]) =
      some [1, 2, 1, 7] :=
  ⟨by decide,
   store_merkle_branch_nodes_saves_final []
     [([4, 1, 2, 1, 7], [1, 2, 1, 7]), ([1, 7], [7])]
     [[3, 2], [7]] [1, 2, 1, 7] (by decide)⟩

/-- Claim C2: for every value present in the trie under a root,
reconstructing the branch obtained from `get_merkle_proof` with
`store_merkle_branch_nodes` and hashing the final reconstructed node yields
exactly that root. -/
theorem merkle_round_trip (t : TNode) (value v : Bytes) (db : DB)
    (hvalue : value ≠ [])
    (_hpresent : trieGet t (encode_bin (sha3 value)) = some v) :
    ∃ branch node, get_merkle_proof t value = .ok branch ∧
      (store_merkle_branch_nodes db branch).2 = .ok node ∧
      sha3 node = trieRoot t := by
  refine ⟨getBranch t (encode_bin (sha3 value)), encodeNode t, ?_,
    storeSteps_getBranch t _ db, rfl⟩
  simp [get_merkle_proof, get_merkle_proofP, pyTruthy, hvalue, sha3Py, pyToBytes]

theorem merkle_round_trip_witness :
    ([7] : Bytes) ≠ [] ∧ trieGet tKV (encode_bin (sha3 [7])) = some [42] ∧
    ∃ branch node, get_merkle_proof tKV [7] = .ok branch ∧
      (store_merkle_branch_nodes [] branch).2 = .ok node ∧
      sha3 node = trieRoot tKV :=
  ⟨by decide, by decide, merkle_round_trip tKV [7] [42] [] (by decide) (by decide)⟩

/-- Claim C6: for every account absent under the given state root (raw
bytes empty), `mk_account_proof_wrapper` succeeds — rather than raising —
and returns a wrapper carrying empty account bytes, empty code, and a
branch proving absence: its reconstruction still rebuilds the root node of
the trie. -/
theorem absent_account_wrapper (t : TNode) (acct : Bytes) (db : DB)
    (hne : acct ≠ [])
    (habsent : trieGet t (encode_bin (sha3 acct)) = none) :
    ∃ w, mk_account_proof_wrapper t acct = .ok w ∧
      w.acct_rlpdata = [] ∧ w.code = [] ∧
      (store_merkle_branch_nodes db w.merkle_proof).2 = .ok (encodeNode t) := by
  have hw : mk_account_proof_wrapper t acct =
      .ok { acct_rlpdata := []
            merkle_proof := getBranch t (encode_bin (sha3 acct))
            code := [] } := by
    simp [mk_account_proof_wrapper, mk_account_proof_wrapperP, get_merkle_proofP,
      pyTruthy, hne, sha3Py, pyToBytes, habsent]
  exact ⟨_, hw, rfl, rfl, storeSteps_getBranch t _ db⟩

theorem absent_account_wrapper_witness :
    ([7] : Bytes) ≠ [] ∧ trieGet (.leaf [3]) (encode_bin (sha3 [7])) = none ∧
    ∃ w, mk_account_proof_wrapper (.leaf [3]) [7] = .ok w ∧
      w.acct_rlpdata = [] ∧ w.code = [] ∧
      (store_merkle_branch_nodes [] w.merkle_proof).2 =
        .ok (encodeNode (.leaf [3])) :=
  ⟨by decide, by decide, absent_account_wrapper (.leaf [3]) [7] [] (by decide) (by decide)⟩

/-- Claim C7, counterexample: a branch whose *last* element carries the
marker byte 9 ∉ {1, 2, 3} is accepted — the terminal element is treated as
the raw leaf value and its first byte is never inspected, so the claim's
"including when the offending step is the last element" is false. -/
theorem corrupted_marker_in_last_step_accepted :
    ([9] : Bytes).head? = some 9 ∧
    (store_merkle_branch_nodes [] [[2, 8], [9]]).2 = .ok [1, 1, 9, 8] := by
  decide

/-- Claim C7, amended: a branch containing a non-terminal step whose
marker byte lies outside {1, 2, 3} makes `store_merkle_branch_nodes` fail
with `CorruptedBranch`, for every non-terminal position it appears in
(provided the other non-terminal steps are nonempty, which otherwise raise
`IndexError` first); the last element is never inspected. -/
theorem store_merkle_branch_nodes_corrupted (db : DB) (branch : List Bytes)
    (hne : ∀ s ∈ branch.dropLast, s ≠ [])
    (hbad : ∃ s ∈ branch.dropLast, ∃ m, s.head? = some m ∧
      m ≠ 1 ∧ m ≠ 2 ∧ m ≠ 3) :
    (store_merkle_branch_nodes db branch).2 = .error .corruptedBranch :=
  storeSteps_corrupted branch db hne hbad

theorem store_merkle_branch_nodes_corrupted_witness :
    (store_merkle_branch_nodes [] [[9, 1], [5]]).2 = .error .corruptedBranch :=
  store_merkle_branch_nodes_corrupted [] [[9, 1], [5]] (by decide)
    ⟨[9, 1], by simp, 9, rfl, by decide, by decide, by decide⟩

theorem verify_tx_bundle_proof_failure_witness :
    verify_merkle_proof w0.merkle_proof b0.state_root (sha3Py (.bytes [7]))
      w0.acct_rlpdata = .ok false ∧
    (verify_tx_bundle f0 env0 [9] [] b0).result = .error .invalidBundle ∧
    (verify_tx_bundle f0 env0 [9] [] b0).ephem_db =
      (processWrappers b0.state_root ephemInit []).1 :=
  ⟨by decide,
   verify_tx_bundle_proof_failure f0 env0 [9] [] b0 [] [] (.bytes [7]) w0 rfl rfl
     (by simp) (by decide)⟩

theorem verify_tx_bundle_root_mismatch_witness :
    ([2] : Bytes) ≠ b0.state_root ∧
    (verify_tx_bundle f0 env0 [2] [] b0).result = .error .invalidBundle ∧
    (verify_tx_bundle f0 env0 [2] [] b0).ephem_db = ephemInit :=
  ⟨by decide, verify_tx_bundle_root_mismatch f0 env0 [2] [] b0 (by decide)⟩

theorem verify_tx_bundle_field_independence_witness :
    (verify_tx_bundle f0 env0 [1] [] b1).result =
    (verify_tx_bundle f0 env0 [1] [] b2).result :=
  verify_tx_bundle_field_independence f0 env0 [1] [] b1 b2 rfl rfl rfl rfl

/-- Claim C5, code bug: for a transaction touching account `[170]` with
coinbase `[1, 2]`, the `updated_acct_proof` of `mk_confirmed_tx_bundle`
covers the keys `{[170], int 1, int 2}` — `set(coinbase)` on source line
118 yields the coinbase's individual bytes as ints — so the coinbase
account itself is not covered, contradicting the claim (and the source's
own docstring). -/
theorem mk_confirmed_tx_bundle_coinbase_bug :
    ((mk_confirmed_tx_bundle (.leaf [0]) (.leaf [0]) coinbase_bug_tx 5
        [1, 2]).toOption.map (fun b => b.updated_acct_proof.map Prod.fst)) =
      some [PyVal.bytes [170], PyVal.int 1, PyVal.int 2] ∧
    PyVal.bytes [1, 2] ∉ [PyVal.bytes [170], PyVal.int 1, PyVal.int 2] := by
  decide
